import Mathlib

/-!
Verification of the cipher core of the `tprotect` repository.

The C++ sources embedded here are:
  * `include/tprotect/cipher/substitution_cipher.hpp`
  * `include/tprotect/cipher/transposition_cipher.hpp`
  * `include/tprotect/cipher/frequency_analyzer.hpp`

Modelling conventions:
  * `std::string` / `std::string_view` are modelled as `List Char`;
    all characters handled by the program are ASCII bytes.
  * `std::expected<std::string, std::string>` is modelled as
    `Except String (List Char)`.
  * `std::map<char, char>` is modelled as a list of assignments in program
    order; `map_find` returns the most recent assignment for a key, which is
    exactly the insert-or-overwrite behaviour of `std::map::operator[]`
    followed by `find`.
  * C `int` values are modelled as `Int`; the only arithmetic performed on
    them (`abs`, `%`, small additions) stays far from the 32-bit range for
    every input the program accepts, so no wrap-around modelling is needed.
-/

namespace tprotect.cipher

/-- Assignment-list lookup modelling `std::map<char,char>::find` over a list of
`operator[]` assignments: the most recent (right-most) assignment for a key
wins, matching `std::map`'s insert-or-overwrite semantics. -/
def map_find : List (Char × Char) → Char → Option Char
  | [], _ => none
  | p :: rest, c =>
    match map_find rest c with
    | some v => some v
    | none => if c = p.1 then some p.2 else none

/-- The alphabet literal of `substitution_cipher::set_key`:
`"abcdefghijklmnopqrstuvwxyzABCDEFGHIJKLMNOPQRSTUVWXYZ"` — the lowercase
sub-range comes first in the source. -/
def alphabet : List Char :=
  "abcdefghijklmnopqrstuvwxyzABCDEFGHIJKLMNOPQRSTUVWXYZ".toList

/-- The 52 cycled key characters `mapping[i % mapping.size()]` for
`i = 0, …, 51`, i.e. the image of the forward substitution map in alphabet
order.  The `getD` default is never reached for a non-empty `mapping`
(`i % length < length`). -/
def key_image (mapping : List Char) : List Char :=
  (List.range 52).map fun i => mapping.getD (i % mapping.length) 'a'

/-- The assignments `encryption_map_[alphabet[i]] = mapping[i % mapping.size()]`
performed by `substitution_cipher::set_key`, in loop order. -/
def subst_pairs (mapping : List Char) : List (Char × Char) :=
  (List.range 52).map fun i =>
    (alphabet.getD i 'a', mapping.getD (i % mapping.length) 'a')

/-- The assignments `decryption_map_[mapping[i % mapping.size()]] = alphabet[i]`
performed by `substitution_cipher::set_key`, in loop order.  Later iterations
overwrite earlier ones when the key collides, which `map_find`'s
most-recent-wins lookup reproduces. -/
def inv_pairs (mapping : List Char) : List (Char × Char) :=
  (List.range 52).map fun i =>
    (mapping.getD (i % mapping.length) 'a', alphabet.getD i 'a')

/-- State of `tprotect::cipher::substitution_cipher`: the two
`std::map<char,char>` members, as assignment lists in program order. -/
structure substitution_cipher where
  encryption_map : List (Char × Char)
  decryption_map : List (Char × Char)
deriving DecidableEq

/-- Model of `substitution_cipher::set_key`.  The C++ body indexes
`mapping[i % mapping.size()]`; for an empty `mapping` this is a modulo by
zero — undefined behaviour — which is modelled by returning `none` (the code
itself contains no guard and no error path).  For a non-empty `mapping` the
52 assignments are appended to the existing maps: `encryption_map_`'s keys are
always exactly the 52 alphabet letters, so they are all overwritten, while
`decryption_map_` keeps any old entry whose key does not occur in the new
key string. -/
def substitution_cipher.set_key (c : substitution_cipher) (mapping : List Char) :
    Option substitution_cipher :=
  if mapping.isEmpty then
    none
  else
    some { encryption_map := c.encryption_map ++ subst_pairs mapping
         , decryption_map := c.decryption_map ++ inv_pairs mapping }

/-- Model of the `substitution_cipher` constructor: default-constructed empty
maps followed by `set_key`. -/
def substitution_cipher.of_key (mapping : List Char) : Option substitution_cipher :=
  substitution_cipher.set_key ⟨[], []⟩ mapping

/-- Loop body of `substitution_cipher::encrypt`: characters found in
`encryption_map_` are replaced, all others are emitted unchanged. -/
def substitution_cipher.encrypt_run (c : substitution_cipher) (input : List Char) :
    List Char :=
  input.map fun ch =>
    match map_find c.encryption_map ch with
    | some mapped => mapped
    | none => ch

/-- Model of `substitution_cipher::encrypt`, which builds the result string and
always returns it as the success variant of `std::expected`. -/
def substitution_cipher.encrypt (c : substitution_cipher) (input : List Char) :
    Except String (List Char) :=
  .ok (c.encrypt_run input)

/-- Loop body of `substitution_cipher::decrypt`: characters found in
`decryption_map_` are replaced, all others are emitted unchanged. -/
def substitution_cipher.decrypt_run (c : substitution_cipher) (input : List Char) :
    List Char :=
  input.map fun ch =>
    match map_find c.decryption_map ch with
    | some mapped => mapped
    | none => ch

/-- Model of `substitution_cipher::decrypt`, which builds the result string and
always returns it as the success variant of `std::expected`. -/
def substitution_cipher.decrypt (c : substitution_cipher) (input : List Char) :
    Except String (List Char) :=
  .ok (c.decrypt_run input)

/-- Model of `std::isupper` in the default "C" locale: true exactly for the
ASCII bytes `'A'` (65) to `'Z'` (90). -/
def isupper (ch : Char) : Bool :=
  65 ≤ ch.toNat && ch.toNat ≤ 90

/-- Model of `std::islower` in the default "C" locale: true exactly for the
ASCII bytes `'a'` (97) to `'z'` (122). -/
def islower (ch : Char) : Bool :=
  97 ≤ ch.toNat && ch.toNat ≤ 122

/-- Model of `std::isalpha` in the default "C" locale: ASCII letters only. -/
def isalpha (ch : Char) : Bool :=
  isupper ch || islower ch

/-- State of `tprotect::cipher::transposition_cipher`: the single `int key_`
member.  Both the constructor and `set_key` store `abs(key) % 26`, so the
stored key is always a natural number below 26. -/
structure transposition_cipher where
  key : Nat
deriving DecidableEq

/-- Model of `transposition_cipher::set_key` (and of the constructor, which
just calls it): `key_ = std::abs(key) % 26`.  The previous key is overwritten
wholesale.  `std::abs` on `int` is modelled by `Int.natAbs`; the two agree on
every 32-bit input the program can receive except `INT_MIN`, where the C++
call is undefined. -/
def transposition_cipher.set_key (key : Int) : transposition_cipher :=
  ⟨key.natAbs % 26⟩

/-- Per-character body of `transposition_cipher::encrypt`:
`(ch - base + key_) % 26 + base` for ASCII letters (`base` is 65 for `'A'` or
97 for `'a'`), identity for every other character.  All intermediate values
are non-negative, so C++ `int` arithmetic coincides with `Nat` arithmetic. -/
def transposition_cipher.encrypt_char (c : transposition_cipher) (ch : Char) : Char :=
  if isalpha ch then
    let base : Nat := if isupper ch then 65 else 97
    Char.ofNat ((ch.toNat - base + c.key) % 26 + base)
  else
    ch

/-- Per-character body of `transposition_cipher::decrypt`:
`shifted = (ch - base - key_) % 26` in C++ `int` arithmetic (truncated
division, hence `Int.tmod`), then `shifted += 26` when negative, then
`shifted + base`. -/
def transposition_cipher.decrypt_char (c : transposition_cipher) (ch : Char) : Char :=
  if isalpha ch then
    let base : Nat := if isupper ch then 65 else 97
    let shifted : Int := ((ch.toNat : Int) - (base : Int) - (c.key : Int)).tmod 26
    let adjusted : Int := if shifted < 0 then shifted + 26 else shifted
    Char.ofNat (adjusted + (base : Int)).toNat
  else
    ch

/-- Loop of `transposition_cipher::encrypt`: one output character pushed per
input character. -/
def transposition_cipher.encrypt_run (c : transposition_cipher) (input : List Char) :
    List Char :=
  input.map c.encrypt_char

/-- Model of `transposition_cipher::encrypt`, which always returns the built
string as the success variant of `std::expected`. -/
def transposition_cipher.encrypt (c : transposition_cipher) (input : List Char) :
    Except String (List Char) :=
  .ok (c.encrypt_run input)

/-- Loop of `transposition_cipher::decrypt`: one output character pushed per
input character. -/
def transposition_cipher.decrypt_run (c : transposition_cipher) (input : List Char) :
    List Char :=
  input.map c.decrypt_char

/-- Model of `transposition_cipher::decrypt`, which always returns the built
string as the success variant of `std::expected`. -/
def transposition_cipher.decrypt (c : transposition_cipher) (input : List Char) :
    Except String (List Char) :=
  .ok (c.decrypt_run input)

/-- Model of `transposition_cipher::decrypt_all_shifts`: for each shift 1..25
construct a cipher with that key and keep the decryption result when it is the
success variant (it always is, so nothing is ever skipped). -/
def transposition_cipher.decrypt_all_shifts (input : List Char) : List (List Char) :=
  (List.range' 1 25).filterMap fun shift : Nat =>
    match (transposition_cipher.set_key (shift : Int)).decrypt input with
    | .ok result => some result
    | .error _ => none

/-- Record `tprotect::cipher::letter_frequency`.  `count` is a C++ `int` that
is only ever incremented from zero, modelled as `Nat`.  `percentage` is a C++
`float` computed as `count * 100.f / total`; it is modelled as the exact
rational `count * 100 / total`, with which the `float` computation agrees
whenever the value is exactly representable — in particular at every value any
claim mentions (25.0, 100.0). -/
structure letter_frequency where
  letter : Char
  count : Nat
  percentage : Rat
deriving DecidableEq

/-- Counting loop of `frequency_analyzer::analyze`: fold over the text keeping
the `std::array<int, 52>` of per-bucket counts (uppercase buckets 0–25,
lowercase buckets 26–51) and the running `total_letters`. -/
def frequency_analyzer.tally (case_sensitive : Bool) (acc : List Nat × Nat) (ch : Char) :
    List Nat × Nat :=
  if 65 ≤ ch.toNat && ch.toNat ≤ 90 then
    (acc.1.set (ch.toNat - 65) (acc.1.getD (ch.toNat - 65) 0 + 1), acc.2 + 1)
  else if 97 ≤ ch.toNat && ch.toNat ≤ 122 then
    if case_sensitive then
      (acc.1.set (26 + (ch.toNat - 97)) (acc.1.getD (26 + (ch.toNat - 97)) 0 + 1), acc.2 + 1)
    else
      (acc.1.set (ch.toNat - 97) (acc.1.getD (ch.toNat - 97) 0 + 1), acc.2 + 1)
  else
    acc

/-- Result-building loop of `frequency_analyzer::analyze`: walk buckets
`0 ..< letter_range` in order and emit a `letter_frequency` for every bucket
with a non-zero count. -/
def frequency_analyzer.build_rows (case_sensitive : Bool) (counts : List Nat) (total : Nat) :
    List letter_frequency :=
  (List.range (if case_sensitive then 52 else 26)).filterMap fun i =>
    if 0 < counts.getD i 0 then
      some { letter := if i < 26 then Char.ofNat (65 + i) else Char.ofNat (97 + (i - 26))
           , count := counts.getD i 0
           , percentage := if 0 < total then
               (counts.getD i 0 : Rat) * 100 / (total : Rat) else 0 }
    else
      none

/-- Everything the C++ standard guarantees for the
`std::sort(result.begin(), result.end(), std::greater<>())` call of
`frequency_analyzer::analyze`: the output is some permutation of the input
that is sorted by the comparator — `letter_frequency::operator>`, which
compares `count` only.  The relative order of equal-count entries is
unspecified (`std::sort` is not stable). -/
def std_sort_contract (f : List letter_frequency → List letter_frequency) : Prop :=
  ∀ l, (f l).Perm l ∧ (f l).Pairwise fun b₁ b₂ => b₂.count ≤ b₁.count

/-- Stable insertion into a count-descending list, placing the new element
before the first element whose count is not larger. -/
def insert_desc (x : letter_frequency) : List letter_frequency → List letter_frequency
  | [] => [x]
  | y :: ys => if x.count < y.count then y :: insert_desc x ys else x :: y :: ys

/-- A stable descending insertion sort by count.  This is one ordering the
`std::sort` call is permitted to produce (`std_sort_contract` holds for it) —
the one the spec's examples assume — but it is an exhibit, not the model of
`std::sort` itself, whose order on equal-count entries is unspecified. -/
def sort_desc : List letter_frequency → List letter_frequency
  | [] => []
  | x :: xs => insert_desc x (sort_desc xs)

/-- Model of `frequency_analyzer::analyze`, parametrized by the behaviour
`sort_impl` realized by its `std::sort` call: the C++ standard constrains
that call only up to `std_sort_contract`, leaving the order of equal-count
entries unspecified, so the model takes the realized ordering as a
parameter instead of fixing one. -/
def frequency_analyzer.analyze
    (sort_impl : List letter_frequency → List letter_frequency)
    (text : List Char) (case_sensitive : Bool) : List letter_frequency :=
  let counted := text.foldl (frequency_analyzer.tally case_sensitive) (List.replicate 52 0, 0)
  sort_impl (frequency_analyzer.build_rows case_sensitive counted.1 counted.2)

/-- The substitution key of the spec's end-to-end example. -/
def c1_key : List Char :=
  "BCDEFGHIJKLMNOPQRSTUVWXYZAbcdefghijklmnopqrstuvwxyza".toList

/-- The substitution cipher built from `c1_key` (the `getD` default is never
used: `of_key` succeeds on every non-empty key). -/
def c1_cipher : substitution_cipher :=
  (substitution_cipher.of_key c1_key).getD ⟨[], []⟩

/-- Substitution cipher keyed with the single non-alphabetic character `'!'`. -/
def bang_cipher : substitution_cipher :=
  (substitution_cipher.of_key ['!']).getD ⟨[], []⟩

/-- Substitution cipher built with key `"ab"` and then re-keyed with `"cd"`
via `set_key`. -/
def ab_then_cd : substitution_cipher :=
  ((substitution_cipher.of_key ['a', 'b']).bind fun c =>
    c.set_key ['c', 'd']).getD ⟨[], []⟩

/-- Substitution cipher built directly with key `"cd"`. -/
def fresh_cd : substitution_cipher :=
  (substitution_cipher.of_key ['c', 'd']).getD ⟨[], []⟩

/-- Decidable equality for the `std::expected` model, so that concrete cipher
outputs can be compared by evaluation. -/
instance {ε α : Type} [DecidableEq ε] [DecidableEq α] : DecidableEq (Except ε α) :=
  fun x y =>
    match x, y with
    | .ok a, .ok b =>
      if h : a = b then .isTrue (by rw [h])
      else .isFalse (by intro hh; cases hh; exact h rfl)
    | .error a, .error b =>
      if h : a = b then .isTrue (by rw [h])
      else .isFalse (by intro hh; cases hh; exact h rfl)
    | .ok _, .error _ => .isFalse (by intro h; cases h)
    | .error _, .ok _ => .isFalse (by intro h; cases h)

/-! ## Helper lemmas -/

theorem map_find_eq_none {l : List (Char × Char)} {c : Char}
    (h : c ∉ l.map Prod.fst) : map_find l c = none := by
  induction l with
  | nil => rfl
  | cons p rest ih =>
    simp only [List.map_cons, List.mem_cons, not_or] at h
    rw [map_find, ih h.2]
    simp [h.1]

theorem map_find_of_nodup {l : List (Char × Char)} (hnd : (l.map Prod.fst).Nodup)
    {k v : Char} (h : (k, v) ∈ l) : map_find l k = some v := by
  induction l with
  | nil => cases h
  | cons p rest ih =>
    simp only [List.map_cons, List.nodup_cons] at hnd
    rcases List.mem_cons.mp h with h | h
    · subst h
      rw [map_find, map_find_eq_none hnd.1]
      simp
    · rw [map_find, ih hnd.2 h]

theorem subst_pairs_fst (k : List Char) : (subst_pairs k).map Prod.fst = alphabet := by
  rw [subst_pairs, List.map_map]
  rfl

theorem inv_pairs_fst (k : List Char) : (inv_pairs k).map Prod.fst = key_image k := by
  rw [inv_pairs, key_image, List.map_map]
  rfl

theorem alphabet_nodup : alphabet.Nodup := by decide

theorem alphabet_all_alpha : ∀ ch ∈ alphabet, isalpha ch = true := by decide

theorem key_image_subset {k : List Char} (hk : k ≠ []) : ∀ a ∈ key_image k, a ∈ k := by
  intro a ha
  rw [key_image, List.mem_map] at ha
  obtain ⟨i, -, rfl⟩ := ha
  have hlen : i % k.length < k.length := Nat.mod_lt _ (List.length_pos.mpr hk)
  rw [List.getD_eq_getElem?_getD, List.getElem?_eq_getElem hlen]
  exact List.getElem_mem hlen

theorem of_key_eq {k : List Char} {c : substitution_cipher}
    (h : substitution_cipher.of_key k = some c) :
    c.encryption_map = subst_pairs k ∧ c.decryption_map = inv_pairs k := by
  rw [substitution_cipher.of_key, substitution_cipher.set_key] at h
  split at h
  · cases h
  · cases h
    exact ⟨List.nil_append _, List.nil_append _⟩

theorem toNat_ofNat_ascii {n : Nat} (h : n < 55296) : (Char.ofNat n).toNat = n := by
  rw [Char.ofNat, dif_pos (Or.inl h)]
  rfl

theorem tmod_small (s : Int) (h1 : -26 < s) (h2 : s < 26) : s.tmod 26 = s := by
  cases s with
  | ofNat m =>
    rw [Int.ofNat_eq_coe] at h2
    have hm : m < 26 := by omega
    show Int.ofNat (m % 26) = Int.ofNat m
    rw [Nat.mod_eq_of_lt hm]
  | negSucc m =>
    rw [Int.negSucc_eq] at h1
    have hm : m + 1 < 26 := by omega
    show -Int.ofNat ((m + 1) % 26) = Int.negSucc m
    rw [Nat.mod_eq_of_lt hm, Int.ofNat_eq_coe, Int.negSucc_eq]
    push_cast
    ring

theorem decrypt_char_encrypt_char (c : transposition_cipher) (hk : c.key < 26)
    (ch : Char) : c.decrypt_char (c.encrypt_char ch) = ch := by
  by_cases ha : isalpha ch = true
  · have hcases := ha
    simp only [isalpha, isupper, islower, Bool.or_eq_true, Bool.and_eq_true,
      decide_eq_true_eq] at hcases
    rcases hcases with ⟨h1, h2⟩ | ⟨h1, h2⟩
    · have hu : isupper ch = true := by simp [isupper]; omega
      have he : (ch.toNat - 65 + c.key) % 26 < 26 := Nat.mod_lt _ (by omega)
      have hE : (Char.ofNat ((ch.toNat - 65 + c.key) % 26 + 65)).toNat
          = (ch.toNat - 65 + c.key) % 26 + 65 := toNat_ofNat_ascii (by omega)
      have hstep : c.encrypt_char ch = Char.ofNat ((ch.toNat - 65 + c.key) % 26 + 65) := by
        simp only [transposition_cipher.encrypt_char, ha, hu, if_true]
      rw [hstep]
      have hEu : isupper (Char.ofNat ((ch.toNat - 65 + c.key) % 26 + 65)) = true := by
        simp only [isupper, hE, Bool.and_eq_true, decide_eq_true_eq]
        omega
      have hEa : isalpha (Char.ofNat ((ch.toNat - 65 + c.key) % 26 + 65)) = true := by
        simp only [isalpha, hEu, Bool.true_or]
      simp only [transposition_cipher.decrypt_char, hEa, hEu, if_true, hE]
      rw [tmod_small]
      · conv_rhs => rw [← Char.ofNat_toNat ch]
        congr 1
        split <;> omega
      · omega
      · omega
    · have hu : isupper ch = false := by simp [isupper]; omega
      have hl : islower ch = true := by simp [islower]; omega
      have he : (ch.toNat - 97 + c.key) % 26 < 26 := Nat.mod_lt _ (by omega)
      have hE : (Char.ofNat ((ch.toNat - 97 + c.key) % 26 + 97)).toNat
          = (ch.toNat - 97 + c.key) % 26 + 97 := toNat_ofNat_ascii (by omega)
      have hstep : c.encrypt_char ch = Char.ofNat ((ch.toNat - 97 + c.key) % 26 + 97) := by
        simp only [transposition_cipher.encrypt_char, ha, hu, if_true, Bool.false_eq_true,
          if_false]
      rw [hstep]
      have hEu : isupper (Char.ofNat ((ch.toNat - 97 + c.key) % 26 + 97)) = false := by
        simp only [isupper, hE]
        simp only [Bool.and_eq_true, decide_eq_true_eq, Bool.and_eq_false_iff,
          decide_eq_false_iff_not]
        omega
      have hEl : islower (Char.ofNat ((ch.toNat - 97 + c.key) % 26 + 97)) = true := by
        simp only [islower, hE, Bool.and_eq_true, decide_eq_true_eq]
        omega
      have hEa : isalpha (Char.ofNat ((ch.toNat - 97 + c.key) % 26 + 97)) = true := by
        simp only [isalpha, hEu, hEl, Bool.or_true]
      simp only [transposition_cipher.decrypt_char, hEa, hEu, if_true, Bool.false_eq_true,
        if_false, hE]
      rw [tmod_small]
      · conv_rhs => rw [← Char.ofNat_toNat ch]
        congr 1
        split <;> omega
      · omega
      · omega
  · rw [Bool.not_eq_true] at ha
    simp [transposition_cipher.encrypt_char, transposition_cipher.decrypt_char, ha]

theorem trans_roundtrip (c : transposition_cipher) (hk : c.key < 26) (x : List Char) :
    c.decrypt_run (c.encrypt_run x) = x := by
  induction x with
  | nil => rfl
  | cons ch t ih =>
    simp only [transposition_cipher.encrypt_run, transposition_cipher.decrypt_run,
      List.map_cons] at *
    rw [decrypt_char_encrypt_char c hk ch, ih]

theorem encrypt_char_key_zero (c : transposition_cipher) (h0 : c.key = 0) (ch : Char) :
    c.encrypt_char ch = ch := by
  by_cases ha : isalpha ch = true
  · have hcases := ha
    simp only [isalpha, isupper, islower, Bool.or_eq_true, Bool.and_eq_true,
      decide_eq_true_eq] at hcases
    rcases hcases with ⟨h1, h2⟩ | ⟨h1, h2⟩
    · have hu : isupper ch = true := by simp [isupper]; omega
      have hv : (ch.toNat - 65 + c.key) % 26 + 65 = ch.toNat := by rw [h0]; omega
      simp only [transposition_cipher.encrypt_char, ha, hu, if_true, hv, Char.ofNat_toNat]
    · have hu : isupper ch = false := by simp [isupper]; omega
      have hv : (ch.toNat - 97 + c.key) % 26 + 97 = ch.toNat := by rw [h0]; omega
      simp only [transposition_cipher.encrypt_char, ha, hu, if_true, Bool.false_eq_true,
        if_false, hv, Char.ofNat_toNat]
  · rw [Bool.not_eq_true] at ha
    simp [transposition_cipher.encrypt_char, ha]

theorem encrypt_run_key_zero (c : transposition_cipher) (h0 : c.key = 0) (x : List Char) :
    c.encrypt_run x = x := by
  induction x with
  | nil => rfl
  | cons ch t ih =>
    simp only [transposition_cipher.encrypt_run, List.map_cons] at *
    rw [encrypt_char_key_zero c h0 ch, ih]

theorem decrypt_all_shifts_eq_map (y : List Char) :
    transposition_cipher.decrypt_all_shifts y =
      (List.range' 1 25).map fun shift : Nat =>
        (transposition_cipher.set_key (shift : Int)).decrypt_run y := by
  have h : transposition_cipher.decrypt_all_shifts y =
      (List.range' 1 25).filterMap (some ∘ fun shift : Nat =>
        (transposition_cipher.set_key (shift : Int)).decrypt_run y) := rfl
  rw [h, List.filterMap_eq_map]

theorem decrypt_all_shifts_length (y : List Char) :
    (transposition_cipher.decrypt_all_shifts y).length = 25 := by
  rw [decrypt_all_shifts_eq_map, List.length_map, List.length_range']

theorem decrypt_all_shifts_getD (y : List Char) (j : Nat) (hj : j < 25) :
    (transposition_cipher.decrypt_all_shifts y).getD j [] =
      (transposition_cipher.set_key ((j + 1 : Nat) : Int)).decrypt_run y := by
  rw [decrypt_all_shifts_eq_map]
  have hlen : j < ((List.range' 1 25).map fun shift : Nat =>
      (transposition_cipher.set_key (shift : Int)).decrypt_run y).length := by
    rw [List.length_map, List.length_range']
    exact hj
  rw [List.getD_eq_getElem?_getD, List.getElem?_eq_getElem hlen]
  simp only [Option.getD_some]
  rw [List.getElem_map, List.getElem_range']
  have harith : 1 + 1 * j = j + 1 := by omega
  rw [harith]

/-! ## Claim theorems -/

/-- C1, counterexample.  With the key
`"BCDEFGHIJKLMNOPQRSTUVWXYZAbcdefghijklmnopqrstuvwxyza"`, `encrypt` applied to
`"Hello, World!"` does not return `"Ifmmp, Xpsme!"`, and `decrypt` applied to
`"Ifmmp, Xpsme!"` does not return `"Hello, World!"`: the alphabet literal in
`set_key` places the lowercase sub-range first, so the claimed outputs have
the wrong case. -/
theorem C1_counterexample :
    substitution_cipher.of_key c1_key = some c1_cipher ∧
    c1_cipher.encrypt "Hello, World!".toList ≠ .ok "Ifmmp, Xpsme!".toList ∧
    c1_cipher.decrypt "Ifmmp, Xpsme!".toList ≠ .ok "Hello, World!".toList := by
  refine ⟨rfl, ?_, ?_⟩ <;> decide

/-- C1, amended.  For the substitution cipher keyed with
`"BCDEFGHIJKLMNOPQRSTUVWXYZAbcdefghijklmnopqrstuvwxyza"`, the mapping is built
by assigning the key character at position `i % key.length()` to the alphabet
letter at position `i` over the 52-letter alphabet with the lowercase
sub-range before the uppercase sub-range; `encrypt("Hello, World!")` returns
`"iFMMP, xPSME!"`, and `decrypt("iFMMP, xPSME!")` with the same key returns
exactly `"Hello, World!"`. -/
theorem C1_amended :
    substitution_cipher.of_key c1_key = some c1_cipher ∧
    c1_cipher.encryption_map = subst_pairs c1_key ∧
    c1_cipher.decryption_map = inv_pairs c1_key ∧
    c1_cipher.encrypt "Hello, World!".toList = .ok "iFMMP, xPSME!".toList ∧
    c1_cipher.decrypt "iFMMP, xPSME!".toList = .ok "Hello, World!".toList := by
  refine ⟨rfl, rfl, rfl, ?_, ?_⟩ <;> decide

/-- C2.  `substitution_cipher::set_key` contains no guard and no error path:
on an empty key the C++ body evaluates `mapping[i % mapping.size()]` with
`mapping.size() == 0` — a modulo by zero, i.e. undefined behaviour, modelled
as `none` — instead of failing with the "empty key" configuration error the
spec requires.  For every non-empty key the 52 assignments are performed and
`set_key` succeeds. -/
theorem C2_empty_key (c : substitution_cipher) (mapping : List Char)
    (h : mapping ≠ []) :
    c.set_key [] = none ∧ (c.set_key mapping).isSome = true := by
  constructor
  · rfl
  · rw [substitution_cipher.set_key, if_neg]
    · rfl
    · simpa using h

/-- C2, witness: instantiation of `C2_empty_key` at a default-constructed
cipher and the one-character key `"a"`. -/
theorem C2_empty_key_witness :
    (['a'] : List Char) ≠ [] ∧
    ((⟨[], []⟩ : substitution_cipher).set_key [] = none ∧
      ((⟨[], []⟩ : substitution_cipher).set_key ['a']).isSome = true) :=
  ⟨by decide, C2_empty_key ⟨[], []⟩ ['a'] (by decide)⟩

/-- C3, counterexample.  For the substitution cipher keyed with the
non-alphabetic key `"!"`, the non-alphabetic input `"!"` is not passed
through by `decrypt`: the decryption map contains an entry for `'!'`
(its final assignment maps it to `'Z'`), so the output differs from the
input at position 0. -/
theorem C3_counterexample :
    substitution_cipher.of_key ['!'] = some bang_cipher ∧
    isalpha '!' = false ∧
    bang_cipher.decrypt ['!'] = .ok ['Z'] ∧
    bang_cipher.decrypt_run ['!'] ≠ ['!'] := by
  refine ⟨rfl, rfl, ?_, ?_⟩ <;> decide

/-- C4.  `substitution_cipher::set_key` does not clear the previous maps:
re-keying a cipher built with `"ab"` using `set_key("cd")` leaves the stale
inverse entry for `'a'` in `decryption_map_`, so `decrypt("a")` returns
`"Y"`, while a freshly constructed cipher with key `"cd"` passes `'a'`
through and returns `"a"`.  The claim (and the spec's "replaced wholesale"
lifecycle) requires the two to agree. -/
theorem C4_stale_decryption_map :
    (substitution_cipher.of_key ['a', 'b']).bind (fun c => c.set_key ['c', 'd']) =
      some ab_then_cd ∧
    substitution_cipher.of_key ['c', 'd'] = some fresh_cd ∧
    ab_then_cd.decrypt ['a'] = .ok ['Y'] ∧
    fresh_cd.decrypt ['a'] = .ok ['a'] ∧
    ab_then_cd.decrypt ['a'] ≠ fresh_cd.decrypt ['a'] := by
  refine ⟨rfl, rfl, ?_, ?_, ?_⟩ <;> decide

/-- C9.  For every input string and every key state, `encrypt` and `decrypt`
of the substitution and the transposition cipher return the success variant of
`std::expected` carrying the transformed string — never the error variant (and
all four functions are `noexcept` and total, so no exception crosses the call
boundary). -/
theorem C9_always_ok (sc : substitution_cipher) (tc : transposition_cipher)
    (x : List Char) :
    (sc.encrypt x).isOk = true ∧ (sc.decrypt x).isOk = true ∧
    (tc.encrypt x).isOk = true ∧ (tc.decrypt x).isOk = true :=
  ⟨rfl, rfl, rfl, rfl⟩

/-- C10.  For every input string and every key state, the strings returned by
`encrypt` and `decrypt` of both ciphers have exactly the same length as the
input: each loop iteration pushes exactly one output character. -/
theorem C10_length_preserved (sc : substitution_cipher) (tc : transposition_cipher)
    (x : List Char) :
    (sc.encrypt_run x).length = x.length ∧ (sc.decrypt_run x).length = x.length ∧
    (tc.encrypt_run x).length = x.length ∧ (tc.decrypt_run x).length = x.length := by
  refine ⟨?_, ?_, ?_, ?_⟩ <;>
    simp [substitution_cipher.encrypt_run, substitution_cipher.decrypt_run,
      transposition_cipher.encrypt_run, transposition_cipher.decrypt_run]

/-- C5.  For every input string `x` (empty or not) and every key `k` in 1..25,
`decrypt_all_shifts` applied to the encryption of `x` under key `k` returns a
sequence of exactly 25 strings, whose element at index `j` is the decryption
of the input under shift `j + 1` (increasing shifts 1..25, shift 0 excluded),
and whose element at index `k - 1` equals `x`. -/
theorem C5_decrypt_all_shifts (x : List Char) (k : Nat) (h1 : 1 ≤ k) (h2 : k ≤ 25) :
    (transposition_cipher.decrypt_all_shifts
        ((transposition_cipher.set_key (k : Int)).encrypt_run x)).length = 25 ∧
    (∀ j, j < 25 →
      (transposition_cipher.decrypt_all_shifts
          ((transposition_cipher.set_key (k : Int)).encrypt_run x)).getD j [] =
        (transposition_cipher.set_key ((j + 1 : Nat) : Int)).decrypt_run
          ((transposition_cipher.set_key (k : Int)).encrypt_run x)) ∧
    (transposition_cipher.decrypt_all_shifts
        ((transposition_cipher.set_key (k : Int)).encrypt_run x)).getD (k - 1) [] = x := by
  refine ⟨decrypt_all_shifts_length _, fun j hj => decrypt_all_shifts_getD _ j hj, ?_⟩
  rw [decrypt_all_shifts_getD _ (k - 1) (by omega)]
  have hkk : k - 1 + 1 = k := by omega
  rw [hkk]
  exact trans_roundtrip _ (Nat.mod_lt _ (by omega)) x

/-- C5, witness: instantiation of `C5_decrypt_all_shifts` at `x = "abcXYZ"`
and `k = 3` (the spec's own example: the encryption is `"defABC"` and the
original text sits at index 2). -/
theorem C5_decrypt_all_shifts_witness :
    (1 ≤ 3 ∧ 3 ≤ 25) ∧
    ((transposition_cipher.decrypt_all_shifts
        ((transposition_cipher.set_key ((3 : Nat) : Int)).encrypt_run "abcXYZ".toList)).length = 25 ∧
    (∀ j, j < 25 →
      (transposition_cipher.decrypt_all_shifts
          ((transposition_cipher.set_key ((3 : Nat) : Int)).encrypt_run "abcXYZ".toList)).getD j [] =
        (transposition_cipher.set_key ((j + 1 : Nat) : Int)).decrypt_run
          ((transposition_cipher.set_key ((3 : Nat) : Int)).encrypt_run "abcXYZ".toList)) ∧
    (transposition_cipher.decrypt_all_shifts
        ((transposition_cipher.set_key ((3 : Nat) : Int)).encrypt_run "abcXYZ".toList)).getD
      (3 - 1) [] = "abcXYZ".toList) :=
  ⟨⟨by decide, by decide⟩, C5_decrypt_all_shifts "abcXYZ".toList 3 (by decide) (by decide)⟩

/-- C6.  For every letter-only string `x` and every integer shift `s` —
including negative `s` — the transposition cipher keyed with `s` satisfies
`decrypt(encrypt(x)) == x`; the key is normalized to `abs(s) % 26` in the
range `[0, 25]`, and the shifts 0 and 26 both reduce to the identity
rotation. -/
theorem C6_shift_roundtrip (s : Int) (x : List Char)
    (hx : ∀ ch ∈ x, isalpha ch = true) :
    (transposition_cipher.set_key s).key = s.natAbs % 26 ∧
    (transposition_cipher.set_key s).key < 26 ∧
    (transposition_cipher.set_key 0).encrypt_run x = x ∧
    (transposition_cipher.set_key 26).encrypt_run x = x ∧
    ((transposition_cipher.set_key s).encrypt x).bind
      (transposition_cipher.set_key s).decrypt = Except.ok x := by
  have hk : (transposition_cipher.set_key s).key < 26 := Nat.mod_lt _ (by omega)
  refine ⟨rfl, hk, encrypt_run_key_zero _ rfl x, encrypt_run_key_zero _ rfl x, ?_⟩
  show Except.ok ((transposition_cipher.set_key s).decrypt_run
      ((transposition_cipher.set_key s).encrypt_run x)) = Except.ok x
  rw [trans_roundtrip _ hk x]

/-- C6, witness: instantiation of `C6_shift_roundtrip` at the negative shift
`s = -27` (normalized to key 1) and the letter-only string `"abcXYZ"`. -/
theorem C6_shift_roundtrip_witness :
    (∀ ch ∈ "abcXYZ".toList, isalpha ch = true) ∧
    ((transposition_cipher.set_key (-27)).key = (-27 : Int).natAbs % 26 ∧
    (transposition_cipher.set_key (-27)).key < 26 ∧
    (transposition_cipher.set_key 0).encrypt_run "abcXYZ".toList = "abcXYZ".toList ∧
    (transposition_cipher.set_key 26).encrypt_run "abcXYZ".toList = "abcXYZ".toList ∧
    ((transposition_cipher.set_key (-27)).encrypt "abcXYZ".toList).bind
      (transposition_cipher.set_key (-27)).decrypt = Except.ok "abcXYZ".toList) :=
  ⟨by decide, C6_shift_roundtrip (-27) "abcXYZ".toList (by decide)⟩

theorem subst_find_mem (k : List Char) (hbij : (key_image k).Perm alphabet)
    {ch : Char} (hch : ch ∈ alphabet) :
    ∃ w, map_find (subst_pairs k) ch = some w ∧ map_find (inv_pairs k) w = some ch := by
  obtain ⟨i, hilen, hich⟩ := List.getElem_of_mem hch
  have h52 : alphabet.length = 52 := rfl
  have hgetD : alphabet.getD i 'a' = ch := by
    rw [List.getD_eq_getElem?_getD, List.getElem?_eq_getElem hilen, Option.getD_some, hich]
  refine ⟨k.getD (i % k.length) 'a', ?_, ?_⟩
  · apply map_find_of_nodup
    · rw [subst_pairs_fst]
      exact alphabet_nodup
    · unfold subst_pairs
      apply List.mem_map.mpr
      refine ⟨i, List.mem_range.mpr (by omega), ?_⟩
      rw [hgetD]
  · apply map_find_of_nodup
    · rw [inv_pairs_fst]
      exact hbij.nodup_iff.mpr alphabet_nodup
    · unfold inv_pairs
      apply List.mem_map.mpr
      refine ⟨i, List.mem_range.mpr (by omega), ?_⟩
      rw [hgetD]

theorem subst_find_not_mem (k : List Char) (hbij : (key_image k).Perm alphabet)
    {ch : Char} (hch : ch ∉ alphabet) :
    map_find (subst_pairs k) ch = none ∧ map_find (inv_pairs k) ch = none := by
  constructor
  · apply map_find_eq_none
    rw [subst_pairs_fst]
    exact hch
  · apply map_find_eq_none
    rw [inv_pairs_fst]
    intro hmem
    exact hch (hbij.mem_iff.mp hmem)

/-- C7.  For every substitution key whose 52 cycled characters form a
permutation of the 52-letter alphabet (a non-colliding key defining a true
bijection over the alphabet), and every input string — necessarily composed
of alphabet letters and non-alphabetic passthrough characters — the
substitution cipher keyed with it satisfies `decrypt(encrypt(x)) == x`. -/
theorem C7_substitution_roundtrip (k : List Char) (c : substitution_cipher)
    (hc : substitution_cipher.of_key k = some c)
    (hbij : (key_image k).Perm alphabet) (x : List Char) :
    (c.encrypt x).bind c.decrypt = Except.ok x := by
  obtain ⟨henc, hdec⟩ := of_key_eq hc
  show Except.ok (c.decrypt_run (c.encrypt_run x)) = Except.ok x
  have hrun : c.decrypt_run (c.encrypt_run x) = x := by
    induction x with
    | nil => rfl
    | cons ch t ih =>
      simp only [substitution_cipher.encrypt_run, substitution_cipher.decrypt_run,
        List.map_cons, List.cons.injEq] at *
      refine ⟨?_, ih⟩
      rw [henc, hdec]
      by_cases hch : ch ∈ alphabet
      · obtain ⟨w, hw1, hw2⟩ := subst_find_mem k hbij hch
        rw [hw1, hw2]
      · obtain ⟨h1, h2⟩ := subst_find_not_mem k hbij hch
        rw [h1, h2]
  rw [hrun]

/-- C7, witness: instantiation of `C7_substitution_roundtrip` at the 52-letter
permutation key of the spec's example and the input `"Hello, World!"`. -/
theorem C7_substitution_roundtrip_witness :
    substitution_cipher.of_key c1_key = some c1_cipher ∧
    (key_image c1_key).Perm alphabet ∧
    (c1_cipher.encrypt "Hello, World!".toList).bind c1_cipher.decrypt =
      Except.ok "Hello, World!".toList :=
  ⟨rfl, by decide, C7_substitution_roundtrip c1_key c1_cipher rfl (by decide)
    "Hello, World!".toList⟩

theorem not_mem_alphabet_of_not_alpha {ch : Char} (h : isalpha ch = false) :
    ch ∉ alphabet := by
  intro hmem
  rw [alphabet_all_alpha ch hmem] at h
  cases h

theorem map_getD_of_fix (f : Char → Char) (x : List Char) (i : Nat)
    (hfix : ∀ ch, isalpha ch = false → f ch = ch)
    (hi : isalpha (x.getD i 'A') = false) :
    (x.map f).getD i 'A' = x.getD i 'A' := by
  by_cases hlen : i < x.length
  · have hmlen : i < (x.map f).length := by
      rw [List.length_map]
      exact hlen
    rw [List.getD_eq_getElem?_getD, List.getElem?_eq_getElem hmlen, Option.getD_some,
      List.getElem_map]
    rw [List.getD_eq_getElem?_getD, List.getElem?_eq_getElem hlen, Option.getD_some] at hi ⊢
    exact hfix _ hi
  · have h1 : (x.map f)[i]? = none := by
      rw [List.getElem?_eq_none]
      rw [List.length_map]
      omega
    have h2 : x[i]? = none := by
      rw [List.getElem?_eq_none]
      omega
    rw [List.getD_eq_getElem?_getD, List.getD_eq_getElem?_getD, h1, h2]

/-- C3, amended.  For every key and every input string, non-alphabetic
characters pass through byte-for-byte, at the same position, in the output of
substitution `encrypt`, transposition `encrypt` and transposition `decrypt`;
for substitution `decrypt` they pass through provided every character of the
key string is alphabetic (a non-alphabetic key character lands in the
decryption map and is replaced by `decrypt` instead of passed through). -/
theorem C3_amended (k : List Char) (c : substitution_cipher)
    (hc : substitution_cipher.of_key k = some c)
    (tc : transposition_cipher) (x : List Char) (i : Nat)
    (hi : isalpha (x.getD i 'A') = false) :
    (c.encrypt_run x).getD i 'A' = x.getD i 'A' ∧
    (tc.encrypt_run x).getD i 'A' = x.getD i 'A' ∧
    (tc.decrypt_run x).getD i 'A' = x.getD i 'A' ∧
    ((∀ ch ∈ k, isalpha ch = true) →
      (c.decrypt_run x).getD i 'A' = x.getD i 'A') := by
  obtain ⟨henc, hdec⟩ := of_key_eq hc
  have hk : k ≠ [] := by
    intro hnil
    rw [hnil] at hc
    cases hc
  refine ⟨?_, ?_, ?_, ?_⟩
  · apply map_getD_of_fix _ _ _ _ hi
    intro ch hch
    have hnone : map_find (subst_pairs k) ch = none := by
      apply map_find_eq_none
      rw [subst_pairs_fst]
      exact not_mem_alphabet_of_not_alpha hch
    rw [henc, hnone]
  · apply map_getD_of_fix _ _ _ _ hi
    intro ch hch
    simp [transposition_cipher.encrypt_char, hch]
  · apply map_getD_of_fix _ _ _ _ hi
    intro ch hch
    simp [transposition_cipher.decrypt_char, hch]
  · intro hkalpha
    apply map_getD_of_fix _ _ _ _ hi
    intro ch hch
    have hnone : map_find (inv_pairs k) ch = none := by
      apply map_find_eq_none
      rw [inv_pairs_fst]
      intro hmem
      have halpha := hkalpha _ (key_image_subset hk _ hmem)
      rw [halpha] at hch
      cases hch
    rw [hdec, hnone]

/-- C3, witness: instantiation of `C3_amended` at the all-alphabetic key
`"b"`, transposition key 5, input `"a!b"` and position 1 (the character
`'!'`). -/
theorem C3_amended_witness :
    substitution_cipher.of_key ['b'] =
      some ((substitution_cipher.of_key ['b']).getD ⟨[], []⟩) ∧
    isalpha ("a!b".toList.getD 1 'A') = false ∧
    ((((substitution_cipher.of_key ['b']).getD ⟨[], []⟩).encrypt_run
        "a!b".toList).getD 1 'A' = "a!b".toList.getD 1 'A' ∧
    ((transposition_cipher.set_key 5).encrypt_run "a!b".toList).getD 1 'A' =
      "a!b".toList.getD 1 'A' ∧
    ((transposition_cipher.set_key 5).decrypt_run "a!b".toList).getD 1 'A' =
      "a!b".toList.getD 1 'A' ∧
    ((∀ ch ∈ ['b'], isalpha ch = true) →
      (((substitution_cipher.of_key ['b']).getD ⟨[], []⟩).decrypt_run
        "a!b".toList).getD 1 'A' = "a!b".toList.getD 1 'A')) :=
  ⟨rfl, by decide, C3_amended ['b'] _ rfl (transposition_cipher.set_key 5)
    "a!b".toList 1 (by decide)⟩

theorem mem_insert_desc {x z : letter_frequency} {l : List letter_frequency} :
    z ∈ insert_desc x l ↔ z = x ∨ z ∈ l := by
  induction l with
  | nil => simp [insert_desc]
  | cons y ys ih =>
    rw [insert_desc]
    by_cases hcnt : x.count < y.count
    · rw [if_pos hcnt, List.mem_cons, ih, List.mem_cons]
      tauto
    · rw [if_neg hcnt, List.mem_cons, List.mem_cons]

theorem insert_desc_perm (x : letter_frequency) (l : List letter_frequency) :
    (insert_desc x l).Perm (x :: l) := by
  induction l with
  | nil => exact List.Perm.refl _
  | cons y ys ih =>
    rw [insert_desc]
    by_cases hcnt : x.count < y.count
    · rw [if_pos hcnt]
      exact (ih.cons y).trans (List.Perm.swap x y ys)
    · rw [if_neg hcnt]

theorem sort_desc_perm (l : List letter_frequency) : (sort_desc l).Perm l := by
  induction l with
  | nil => exact List.Perm.refl _
  | cons x xs ih =>
    rw [sort_desc]
    exact (insert_desc_perm x (sort_desc xs)).trans (ih.cons x)

theorem pairwise_desc_insert_desc (x : letter_frequency) (l : List letter_frequency)
    (hl : l.Pairwise (fun b₁ b₂ => b₂.count ≤ b₁.count)) :
    (insert_desc x l).Pairwise (fun b₁ b₂ => b₂.count ≤ b₁.count) := by
  induction l with
  | nil => simp [insert_desc]
  | cons y ys ih =>
    rw [List.pairwise_cons] at hl
    obtain ⟨hy, hys⟩ := hl
    rw [insert_desc]
    by_cases hcnt : x.count < y.count
    · rw [if_pos hcnt, List.pairwise_cons]
      refine ⟨?_, ih hys⟩
      intro z hz
      rcases mem_insert_desc.mp hz with rfl | hz'
      · exact Nat.le_of_lt hcnt
      · exact hy z hz'
    · rw [if_neg hcnt, List.pairwise_cons]
      refine ⟨?_, List.Pairwise.cons hy hys⟩
      intro z hz
      rcases List.mem_cons.mp hz with rfl | hz'
      · exact Nat.le_of_not_lt hcnt
      · exact Nat.le_trans (hy z hz') (Nat.le_of_not_lt hcnt)

theorem sort_desc_sorted (l : List letter_frequency) :
    (sort_desc l).Pairwise (fun b₁ b₂ => b₂.count ≤ b₁.count) := by
  induction l with
  | nil => simp [sort_desc]
  | cons x xs ih =>
    rw [sort_desc]
    exact pairwise_desc_insert_desc x _ ih

theorem sort_desc_contract : std_sort_contract sort_desc :=
  fun l => ⟨sort_desc_perm l, sort_desc_sorted l⟩

theorem sort_desc_reverse_contract : std_sort_contract (fun l => sort_desc l.reverse) :=
  fun l => ⟨(sort_desc_perm l.reverse).trans (List.reverse_perm l), sort_desc_sorted _⟩

theorem build_rows_count_pos (cs : Bool) (counts : List Nat) (total : Nat) :
    ∀ b ∈ frequency_analyzer.build_rows cs counts total, 0 < b.count := by
  intro b hb
  unfold frequency_analyzer.build_rows at hb
  rw [List.mem_filterMap] at hb
  obtain ⟨i, -, hi⟩ := hb
  by_cases hcpos : 0 < counts.getD i 0
  · rw [if_pos hcpos] at hi
    cases hi
    exact hcpos
  · rw [if_neg hcpos] at hi
    cases hi

set_option maxHeartbeats 1000000 in
/-- C8.  What `frequency_analyzer::analyze` guarantees: for every behaviour
of its `std::sort` call allowed by the C++ standard, the result holds only
buckets with non-zero count, sorted by count descending.  The claimed stable
tie order is not guaranteed: the comparator `letter_frequency::operator>`
compares `count` only and `std::sort` is not stable, so the standard permits
different orders for equal-count buckets — two orderings both satisfying
`std_sort_contract` are exhibited, of which only the stable one yields the
claimed buckets A, B, a, b (count 1, percentage 25) on `"AaBb"`; the other
yields them reversed.  The spec's "stable for equal counts" would require
`std::stable_sort`. -/
theorem C8_analyze (text : List Char) (cs : Bool)
    (sort_impl : List letter_frequency → List letter_frequency)
    (hsort : std_sort_contract sort_impl) :
    (∀ b ∈ frequency_analyzer.analyze sort_impl text cs, 0 < b.count) ∧
    (frequency_analyzer.analyze sort_impl text cs).Pairwise
      (fun b₁ b₂ => b₂.count ≤ b₁.count) ∧
    std_sort_contract sort_desc ∧
    std_sort_contract (fun l => sort_desc l.reverse) ∧
    frequency_analyzer.analyze sort_desc "AaBb".toList true =
      [⟨'A', 1, 25⟩, ⟨'B', 1, 25⟩, ⟨'a', 1, 25⟩, ⟨'b', 1, 25⟩] ∧
    (frequency_analyzer.analyze (fun l => sort_desc l.reverse) "AaBb".toList true).map
      letter_frequency.letter = ['b', 'a', 'B', 'A'] := by
  refine ⟨?_, ?_, sort_desc_contract, sort_desc_reverse_contract, ?_, by decide⟩
  · intro b hb
    unfold frequency_analyzer.analyze at hb
    rw [(hsort _).1.mem_iff] at hb
    exact build_rows_count_pos _ _ _ b hb
  · unfold frequency_analyzer.analyze
    exact (hsort _).2
  · have hfold : List.foldl (frequency_analyzer.tally true) (List.replicate 52 0, 0)
        "AaBb".toList =
        ([1, 1, 0, 0, 0, 0, 0, 0, 0, 0, 0, 0, 0, 0, 0, 0, 0, 0, 0, 0, 0, 0, 0, 0, 0, 0,
          1, 1, 0, 0, 0, 0, 0, 0, 0, 0, 0, 0, 0, 0, 0, 0, 0, 0, 0, 0, 0, 0, 0, 0, 0, 0],
          4) := by decide
    unfold frequency_analyzer.analyze
    rw [hfold]
    norm_num [frequency_analyzer.build_rows, sort_desc, insert_desc]

/-- C8, witness: instantiation of `C8_analyze` at the input `"AaBb"` with
case sensitivity on and the contract-satisfying ordering `sort_desc`. -/
theorem C8_analyze_witness :
    std_sort_contract sort_desc ∧
    ((∀ b ∈ frequency_analyzer.analyze sort_desc "AaBb".toList true, 0 < b.count) ∧
    (frequency_analyzer.analyze sort_desc "AaBb".toList true).Pairwise
      (fun b₁ b₂ => b₂.count ≤ b₁.count) ∧
    std_sort_contract sort_desc ∧
    std_sort_contract (fun l => sort_desc l.reverse) ∧
    frequency_analyzer.analyze sort_desc "AaBb".toList true =
      [⟨'A', 1, 25⟩, ⟨'B', 1, 25⟩, ⟨'a', 1, 25⟩, ⟨'b', 1, 25⟩] ∧
    (frequency_analyzer.analyze (fun l => sort_desc l.reverse) "AaBb".toList true).map
      letter_frequency.letter = ['b', 'a', 'B', 'A']) :=
  ⟨sort_desc_contract, C8_analyze "AaBb".toList true sort_desc sort_desc_contract⟩

end tprotect.cipher
